import Mathlib

/-!
Verification of the two-stage skill-portability estimation pipeline
(`src/04_skill_portability.py`) against its specification.

Shallow embedding conventions:
* a pandas dataframe is modelled as a list of rows (one structure per table),
  and a float column attached to a dataframe of `n` rows as a function
  `Fin n → ℚ`;
* float arithmetic is modelled by exact rational arithmetic; a float cell
  that is NaN or ±inf is modelled as `none : Option ℚ` at the places where
  the source can produce such values (`0/0`, `x/0`, `log 0`, min of an
  empty selection);
* `np.log` enters the claims only through finiteness and through which
  rational its argument is; the fact used by the source's `np.isfinite`
  filter is that the float logarithm is finite exactly when its argument
  is positive (`logIsFinite`);
* a Python function that can raise is embedded as `Except PyError _`.
-/

namespace SkillPort

/-- Errors the pipeline can raise.  The source defines no error taxonomy of
its own; `valueError` models exceptions raised by numpy/sklearn (for example
`np.max` on a zero-size array), and `dataError` exists only so that the
spec's claimed `DataError` behaviour is statable — no embedded function ever
returns it, because no `DataError` is raised anywhere in the source. -/
inductive PyError where
  | dataError : PyError
  | valueError : PyError
deriving DecidableEq

/-- A row of `cps_switching_matrix.csv`: directional switch counts. -/
structure SwitchRow where
  occ_origin : ℤ
  occ_dest : ℤ
  weighted_switches : ℚ
deriving DecidableEq

/-- A row of `cps_stayer_counts.csv`: stayer counts by occupation. -/
structure StayerRow where
  occ : ℤ
  weighted_stayers : ℚ
deriving DecidableEq

/-- A row of the inner merge `switches.merge(stayers, left_on="occ_origin",
right_on="occ", how="inner")`. -/
structure MergedRow where
  occ_origin : ℤ
  occ_dest : ℤ
  weighted_switches : ℚ
  weighted_stayers : ℚ
deriving DecidableEq

/-- A surviving row of the builder output: a directional pair together with
its (finite, positive) switching share.  The dependent variable of the
regression is `np.log` of the share, finite because the share is positive. -/
structure BuiltRow where
  occ_origin : ℤ
  occ_dest : ℤ
  share : ℚ
deriving DecidableEq

/-- Keep switch rows whose two occupations both have skill data:
`switches[switches["occ_origin"].isin(skill_occs) &
switches["occ_dest"].isin(skill_occs)]`.  The skill table enters the builder only
through its index set, modelled as the list `skillOccs`. -/
def filterSwitches (sw : List SwitchRow) (skillOccs : List ℤ) : List SwitchRow :=
  sw.filter (fun r => r.occ_origin ∈ skillOccs ∧ r.occ_dest ∈ skillOccs)

/-- Keep stayer rows with skill data: `stayers[stayers["occ"].isin(skill_occs)]`. -/
def filterStayers (st : List StayerRow) (skillOccs : List ℤ) : List StayerRow :=
  st.filter (fun r => r.occ ∈ skillOccs)

/-- The inner merge of the filtered switch rows with the stayer counts on
`occ_origin = occ`, in pandas order (left rows in order, each matched with
every matching right row). -/
def mergeStayers (sw : List SwitchRow) (st : List StayerRow) : List MergedRow :=
  sw.flatMap (fun r =>
    (st.filter (fun s => s.occ = r.occ_origin)).map (fun s =>
      ⟨r.occ_origin, r.occ_dest, r.weighted_switches, s.weighted_stayers⟩))

/-- The single global minimum positive switch count:
`switches.loc[switches["weighted_switches"] > 0, "weighted_switches"].min()`, over the merged table;
`none` models pandas' NaN when the positive selection is empty. -/
def minPos (l : List MergedRow) : Option ℚ :=
  ((l.filter (fun r => 0 < r.weighted_switches)).map
    (fun r => r.weighted_switches)).foldl
    (fun acc x => match acc with
      | none => some x
      | some m => some (min m x)) none

/-- The float value of one row's `switch_share` column after the zero-switch
imputation, with float semantics made explicit: division by a zero stayer
count gives ±inf or NaN (`none`); a zero share is replaced by
`min_nonzero / weighted_stayers`, which is NaN (`none`) when `min_nonzero`
is itself the NaN min of an empty selection. -/
def shareVal (mn : Option ℚ) (r : MergedRow) : Option ℚ :=
  if r.weighted_stayers = 0 then none
  else if r.weighted_switches / r.weighted_stayers = 0 then
    mn.map (fun m => m / r.weighted_stayers)
  else some (r.weighted_switches / r.weighted_stayers)

/-- The merged table with the imputed `switch_share` column attached. -/
def buildShares (merged : List MergedRow) : List (MergedRow × Option ℚ) :=
  merged.map (fun r => (r, shareVal (minPos merged) r))

/-- Remove self-pairs: `switches[switches["occ_origin"] != switches["occ_dest"]]`. -/
def dropSelfPairs (l : List (MergedRow × Option ℚ)) : List (MergedRow × Option ℚ) :=
  l.filter (fun p => p.1.occ_origin ≠ p.1.occ_dest)

/-- Keep rows with a finite log share, `switches[np.isfinite(switches["log_switch_share"])]`: the float
`np.log(share)` is finite exactly when the share is a finite positive
number, so a row survives iff its share is `some q` with `0 < q`. -/
def keepFiniteLog (l : List (MergedRow × Option ℚ)) : List BuiltRow :=
  l.filterMap (fun p =>
    match p.2 with
    | some q => if 0 < q then some ⟨p.1.occ_origin, p.1.occ_dest, q⟩ else none
    | none => none)

/-- The merged regression table of the builder: filter both inputs to the
skill occupations, then inner-merge the stayer counts. -/
def mergedOf (sw : List SwitchRow) (st : List StayerRow) (skillOccs : List ℤ) :
    List MergedRow :=
  mergeStayers (filterSwitches sw skillOccs) (filterStayers st skillOccs)

/-- The builder `build_switching_regression_data`, composed exactly as in the source:
filter both tables to the skill occupations, inner-merge stayers, impute
zero shares with the global minimum positive switch count, drop self-pairs,
drop rows with non-finite log share.  The source raises no exception on any
of these steps (in particular no `DataError`), so the result is always
`Except.ok`. -/
def build_switching_regression_data (sw : List SwitchRow) (st : List StayerRow)
    (skillOccs : List ℤ) : Except PyError (List BuiltRow) :=
  Except.ok (keepFiniteLog (dropSelfPairs (buildShares (mergedOf sw st skillOccs))))

/-- The float `np.log q` is a finite number (not `-inf`, not `NaN`) exactly
when `0 < q`; this predicate stands for "the row's `log_switch_share` is
finite" throughout. -/
def logIsFinite (q : ℚ) : Prop :=
  0 < q

instance (q : ℚ) : Decidable (logIsFinite q) := by
  unfold logIsFinite; infer_instance

/-!
Fixed-effect residualizer (`step1_ols_residualize`).  The dataframe columns
`occ_origin`, `occ_dest`, `log_switch_share` of the `n`-row regression table
are functions `Fin n → ℤ` and `Fin n → ℚ` (the float log column modelled as
exact rationals).
-/

/-- Group-mean transform `pd.Series(residuals).groupby(key).transform("mean")`
evaluated at group `k`: the mean of `r` over the rows whose key equals `k`. -/
def gmean {n : ℕ} (key : Fin n → ℤ) (r : Fin n → ℚ) (k : ℤ) : ℚ :=
  (∑ j ∈ Finset.univ.filter (fun j => key j = k), r j) /
    ((Finset.univ.filter (fun j => key j = k)).card : ℚ)

/-- Subtract each row's group mean (`residuals = residuals - means.values`). -/
def demean {n : ℕ} (key : Fin n → ℤ) (r : Fin n → ℚ) : Fin n → ℚ :=
  fun i => r i - gmean key r (key i)

/-- Store a residual column as concrete data, like the numpy array the
source keeps; semantically the identity (`materialize_eq`). -/
def materialize {n : ℕ} (f : Fin n → ℚ) : Fin n → ℚ :=
  fun i => (List.ofFn f).getD (i : ℕ) 0

/-- One loop iteration of the residualizer: demean by origin, then demean
by destination. -/
def stepDemean {n : ℕ} (origin dest : Fin n → ℤ) (r : Fin n → ℚ) : Fin n → ℚ :=
  materialize (demean dest (demean origin r))

/-- `np.max(np.abs(f))` over the rows (`0` if there are no rows; the source
never evaluates that case inside the loop, since `step1` fails on an empty
table before reaching it). -/
def maxAbs {n : ℕ} (f : Fin n → ℚ) : ℚ :=
  Finset.univ.fold max 0 (fun i => |f i|)

/-- The convergence tolerance `1e-10` of the residualizer. -/
def tolQ : ℚ := 1 / 10000000000

/-- The demeaning loop
`for _ in range(50): ...; if np.max(np.abs(residuals - residuals_old)) < 1e-10: break`
with the given remaining iteration budget.  Besides the final residual
column it returns whether the `break` fired within the budget (`true` =
the convergence criterion was met; the source does not record this flag —
it is the observable needed to state the convergence claims). -/
def resIter {n : ℕ} (origin dest : Fin n → ℤ) : ℕ → (Fin n → ℚ) → (Fin n → ℚ) × Bool
  | 0, r => (r, false)
  | t + 1, r =>
    let r1 := stepDemean origin dest r
    if maxAbs (fun i => r1 i - r i) < tolQ then (r1, true)
    else resIter origin dest t r1

/-- Residual sum of squares `np.sum(residuals ** 2)` (and, applied to
centred data, the total sum of squares). -/
def ssq {n : ℕ} (f : Fin n → ℚ) : ℚ :=
  ∑ i, (f i) ^ 2

/-- Column mean `y.mean()`. -/
def meanAll {n : ℕ} (y : Fin n → ℚ) : ℚ :=
  (∑ i, y i) / (n : ℚ)

/-- Total sum of squares `ss_total = np.sum((y - y.mean()) ** 2)`. -/
def ssTot {n : ℕ} (y : Fin n → ℚ) : ℚ :=
  ∑ i, (y i - meanAll y) ^ 2

/-- `step1_ols_residualize`: run the 50-iteration demeaning loop on the log
column of the `n`-row regression table and report the residual column
together with `r2_fe = 1 - ss_resid / ss_total`.  On an empty table
(`n = 0`) the first convergence check `np.max(np.abs(...))` raises
`ValueError` (zero-size reduction), embedded as `Except.error`; on a
nonempty table the function never raises. -/
def step1_ols_residualize {n : ℕ} (origin dest : Fin n → ℤ) (y : Fin n → ℚ) :
    Except PyError ((Fin n → ℚ) × ℚ) :=
  if n = 0 then Except.error PyError.valueError
  else
    Except.ok ((resIter origin dest 50 y).1,
      1 - ssq ((resIter origin dest 50 y).1) / ssTot y)

/-- The warnings surfaced by `step1_ols_residualize` on a table with the
given columns: the source contains no warning emission at all — reaching
the iteration cap is not reported — and the module even calls
`warnings.filterwarnings("ignore")`, suppressing library warnings.  The
warning stream is therefore empty for every input. -/
def step1Warnings {n : ℕ} (_origin _dest : Fin n → ℤ) (_y : Fin n → ℚ) : List String :=
  []

/-!
Aggregator (`compute_aggregate_portability`).
-/

/-- A row of the pairwise table entering the aggregator: a directional pair
with its `predicted_skill_portability`. -/
structure PortRow where
  occ_origin : ℤ
  occ_dest : ℤ
  pred : ℚ
deriving DecidableEq

/-- Minimum of a float column (`Series.min()`).  The aggregator claims only
use it on nonempty columns; the `0` returned on an empty column stands in
for pandas' NaN and is never relied on. -/
def colMin (l : List ℚ) : ℚ :=
  match l with
  | [] => 0
  | x :: xs => xs.foldl min x

/-- Maximum of a float column (`Series.max()`); see `colMin`. -/
def colMax (l : List ℚ) : ℚ :=
  match l with
  | [] => 0
  | x :: xs => xs.foldl max x

/-- The `predicted_skill_portability` column. -/
def predCol (port : List PortRow) : List ℚ :=
  port.map (fun r => r.pred)

/-- The float value of one row's min-max normalised score
`portability_norm = (pred - pred.min()) / (pred.max() - pred.min())`.
When `max = min`, every numerator is also `0`, so every row's float value
is `0/0 = NaN`, modelled as `none`; the source has no branch for this case
and raises nothing. -/
def normScore (port : List PortRow) (r : PortRow) : Option ℚ :=
  if colMax (predCol port) - colMin (predCol port) = 0 then none
  else some ((r.pred - colMin (predCol port)) / (colMax (predCol port) - colMin (predCol port)))

/-- The rational value of the normalised score in the non-degenerate case
(`normScore = some (normQ ...)` whenever `max ≠ min`). -/
def normQ (port : List PortRow) (r : PortRow) : ℚ :=
  (r.pred - colMin (predCol port)) / (colMax (predCol port) - colMin (predCol port))

/-- `emp_map.get(occ, 0)` for `emp_map = dict(zip(emp["occ"], emp["emp_pre"]))`:
the last occurrence of an occupation wins, missing occupations get `0`. -/
def empGet (emp : List (ℤ × ℚ)) (k : ℤ) : ℚ :=
  emp.foldl (fun acc p => if p.1 = k then p.2 else acc) 0

/-- The rows of one origin's group in `port.groupby("occ_origin")`. -/
def groupRows (port : List PortRow) (o : ℤ) : List PortRow :=
  port.filter (fun r => r.occ_origin = o)

/-- `total_weight`: the summed destination employment over one origin group. -/
def totalWeight (emp : List (ℤ × ℚ)) (port : List PortRow) (o : ℤ) : ℚ :=
  (groupRows port o).foldl (fun acc r => acc + empGet emp r.occ_dest) 0

/-- `weighted_port`: the sum of `portability_norm * emp_d` over one origin
group, with float NaN propagation — if any row's normalised score is NaN
the sum is NaN, since `NaN * w = NaN` even for `w = 0`. -/
def weightedSum (emp : List (ℤ × ℚ)) (port : List PortRow) (o : ℤ) : Option ℚ :=
  (groupRows port o).foldl
    (fun acc r => match acc, normScore port r with
      | some s, some q => some (s + q * empGet emp r.occ_dest)
      | _, _ => none) (some 0)

/-- `mean_pairwise_portability`: the unweighted mean of the normalised
score over one origin group, with the same NaN propagation. -/
def meanScore (port : List PortRow) (o : ℤ) : Option ℚ :=
  ((groupRows port o).foldl
    (fun acc r => match acc, normScore port r with
      | some s, some q => some (s + q)
      | _, _ => none) (some 0)).map
    (fun s => s / ((groupRows port o).length : ℚ))

/-- The distinct origin occupations of the pairwise table (the groupby
keys; pandas iterates them sorted, this embedding in first-appearance
order — the claims below only concern membership and per-origin values,
which do not depend on that order). -/
def originsOf (port : List PortRow) : List ℤ :=
  (port.map (fun r => r.occ_origin)).dedup

/-- `compute_aggregate_portability`: for every origin occupation whose
total destination employment is positive, one output row
`(occ2010, aggregate_portability, mean_pairwise_portability)`; origins
failing the `if total_weight > 0` guard produce no output row, and nothing
else in the output records them.  The title merge and the final sort are
omitted: they reorder or decorate rows but create or delete none, and the
left-merge of the mean column cannot drop rows because the mean exists for
every origin present. -/
def compute_aggregate_portability (emp : List (ℤ × ℚ)) (port : List PortRow) :
    List (ℤ × Option ℚ × Option ℚ) :=
  (originsOf port).filterMap (fun o =>
    if 0 < totalWeight emp port o then
      some (o, (weightedSum emp port o).map (fun s => s / totalWeight emp port o),
        meanScore port o)
    else none)

/-- The fiber of a key value, as a finset of row indices. -/
def fiber {n : ℕ} (key : Fin n → ℤ) (k : ℤ) : Finset (Fin n) :=
  Finset.univ.filter (fun j => key j = k)

/-!
A concrete residualizer input that reaches the iteration cap: six rows on a
cycle of three origins and three destinations, with the log column a large
multiple of an exact eigenvector (eigenvalue `1/4`) of the double-demeaning
map.  The rows are the pairs (1,1), (2,1), (2,2), (3,2), (3,3), (1,3).  Every iteration then rescales the column by `1/4` exactly, so the
per-iteration change is `(3/2)·(1/4)^t` times the amplitude — far above the
`1e-10` tolerance for all 50 iterations at amplitude `10^40`. -/

/-- Origin column of the cycle table. -/
def cycOrigin : Fin 6 → ℤ :=
  ![1, 2, 2, 3, 3, 1]

/-- Destination column of the cycle table. -/
def cycDest : Fin 6 → ℤ :=
  ![1, 1, 2, 2, 3, 3]

/-- An exact eigenvector of the double-demeaning map on the cycle table. -/
def cycVec : Fin 6 → ℚ :=
  ![2, -2, -1, 1, -1, 1]

/-- The intermediate column after the origin demean of `cycVec` (times 2). -/
def cycMid : Fin 6 → ℚ :=
  ![1, -1, 1, 2, -2, -1]

/-- Amplitude of the non-converging log column. -/
def cycAmp : ℚ :=
  10 ^ 40

/-- The non-converging log column itself. -/
def cycY : Fin 6 → ℚ :=
  fun i => cycAmp * cycVec i

/-!
A residualizer input on which the loop converges — the break fires in the
first iteration, every row moving by exactly `dlt/2 = 9.5e-11 < 1e-10` —
yet the origin-group mean of the final residuals at origin `11000` is
`5499 · dlt = 1.04481e-6 ≥ 1e-6`.  The input is a long chain: origins
`1..11000`, destinations `1..10999`; for `j = 0..10998` row `j` is
`(origin j+1, dest j+1, aseq (j+1))` and row `10999 + j` is
`(origin j+2, dest j+1, -aseq (j+1))`.  Destination-group means of the
input are zero by construction, origin-group means are `omq m`, a linear
ramp with step `dlt` — so one double-demean moves every row by only
`±dlt/2`, while leaving the end-of-chain origin means at about
`±(10999/2)·dlt`. -/

/-- The ramp step `1.9e-10`, chosen so that `dlt / 2 < 1e-10`. -/
def dlt : ℚ :=
  19 / 100000000000

/-- The log column values of the chain input (`A` rows; `B` rows carry
`-aseq`). -/
def aseq (k : ℕ) : ℚ :=
  dlt * ((k : ℚ) * ((k : ℚ) + 1) - 2 - ((k : ℚ) - 1) * 11001 - 10999 / 2)

/-- The origin-group means of the chain input: a linear ramp. -/
def omq (m : ℕ) : ℚ :=
  ((m : ℚ) - 11001 / 2) * dlt

/-- Origin column of the chain input. -/
def chainOrigin (i : Fin 21998) : ℤ :=
  if (i : ℕ) < 10999 then ((i : ℕ) : ℤ) + 1 else ((i : ℕ) : ℤ) - 10999 + 2

/-- Destination column of the chain input. -/
def chainDest (i : Fin 21998) : ℤ :=
  if (i : ℕ) < 10999 then ((i : ℕ) : ℤ) + 1 else ((i : ℕ) : ℤ) - 10999 + 1

/-- Log column of the chain input. -/
def chainY (i : Fin 21998) : ℚ :=
  if (i : ℕ) < 10999 then aseq ((i : ℕ) + 1) else -aseq ((i : ℕ) - 10999 + 1)

/-!
Concrete tables used to instantiate the claims.
-/

/-- A switch table whose occupations are disjoint from the skill table `[3]`. -/
def empSkillSw : List SwitchRow :=
  [⟨1, 2, 5⟩]

/-- Stayer counts for the empty-intersection scenario. -/
def empSkillSt : List StayerRow :=
  [⟨1, 10⟩]

/-- A switch table with one zero-switch cross pair and one positive cross
pair. -/
def zeroSw : List SwitchRow :=
  [⟨1, 2, 0⟩, ⟨2, 1, 3⟩]

/-- Stayer counts for `zeroSw`. -/
def zeroSt : List StayerRow :=
  [⟨1, 10⟩, ⟨2, 10⟩]

/-- A switch table whose single smallest positive count (`1`) sits on the
self-pair `(1, 1)`; the smallest positive count among cross pairs is `3`. -/
def selfMinSw : List SwitchRow :=
  [⟨1, 1, 1⟩, ⟨1, 2, 0⟩, ⟨2, 1, 3⟩]

/-- Stayer counts for `selfMinSw`. -/
def selfMinSt : List StayerRow :=
  [⟨1, 10⟩, ⟨2, 10⟩]

/-- The skill occupations used by the concrete builder tables. -/
def twoSkills : List ℤ :=
  [1, 2]

/-- The merged table built from `selfMinSw`. -/
def mergedSelf : List MergedRow :=
  mergedOf selfMinSw selfMinSt twoSkills

/-- A pairwise table on which every predicted value is equal. -/
def flatPort : List PortRow :=
  [⟨1, 2, 5⟩, ⟨2, 1, 5⟩]

/-- Employment table for the aggregator claims. -/
def aggEmp : List (ℤ × ℚ) :=
  [(2, 5), (3, 1)]

/-- Pairwise table for the weighted-mean claim: origin `1` has destinations
`2` and `3` with positive employment. -/
def aggPort : List PortRow :=
  [⟨1, 2, 4⟩, ⟨1, 3, 2⟩, ⟨4, 9, 0⟩]

/-- Employment table in which origin `3`'s only destination is missing. -/
def dropEmp : List (ℤ × ℚ) :=
  [(2, 5)]

/-- Pairwise table in which origin `3` has no destination employment. -/
def dropPort : List PortRow :=
  [⟨1, 2, 7⟩, ⟨3, 4, 9⟩]

/-!
General lemmas about the residualizer.
-/

lemma materialize_eq {n : ℕ} (f : Fin n → ℚ) : materialize f = f := by
  funext i
  have hi : (i : ℕ) < (List.ofFn f).length := by simp [i.isLt]
  simp [materialize, List.getD_eq_getElem _ _ hi]

lemma stepDemean_eq {n : ℕ} (origin dest : Fin n → ℤ) (r : Fin n → ℚ) :
    stepDemean origin dest r = demean dest (demean origin r) := by
  unfold stepDemean
  exact materialize_eq _

lemma gmean_def {n : ℕ} (key : Fin n → ℤ) (r : Fin n → ℚ) (k : ℤ) :
    gmean key r k = (∑ j ∈ fiber key k, r j) / ((fiber key k).card : ℚ) :=
  rfl

lemma fiber_sum_eq {n : ℕ} (key : Fin n → ℤ) (r : Fin n → ℚ) (k : ℤ)
    (h : (fiber key k).Nonempty) :
    ∑ j ∈ fiber key k, r j = ((fiber key k).card : ℚ) * gmean key r k := by
  have hpos : 0 < (fiber key k).card := Finset.card_pos.mpr h
  have hc : ((fiber key k).card : ℚ) ≠ 0 := by exact_mod_cast hpos.ne'
  rw [gmean_def]
  field_simp

/-- The group mean minimizes the within-group sum of squares: subtracting
the fiber mean gives a no-larger sum of squared deviations than subtracting
any constant. -/
lemma fiber_sq_le {n : ℕ} (F : Finset (Fin n)) (r : Fin n → ℚ) (m c : ℚ)
    (hm : ∑ j ∈ F, r j = (F.card : ℚ) * m) :
    ∑ j ∈ F, (r j - m) ^ 2 ≤ ∑ j ∈ F, (r j - c) ^ 2 := by
  have hzero : ∑ j ∈ F, (r j - m) = 0 := by
    rw [Finset.sum_sub_distrib, hm, Finset.sum_const, nsmul_eq_mul]
    ring
  have hexp : ∀ j, (r j - c) ^ 2
      = (r j - m) ^ 2 + 2 * (m - c) * (r j - m) + (m - c) ^ 2 := by
    intro j; ring
  calc ∑ j ∈ F, (r j - m) ^ 2
      ≤ ∑ j ∈ F, (r j - m) ^ 2 + (F.card : ℚ) * (m - c) ^ 2 := by
        have : (0 : ℚ) ≤ (F.card : ℚ) * (m - c) ^ 2 :=
          mul_nonneg (by positivity) (sq_nonneg _)
        linarith
    _ = ∑ j ∈ F, (r j - c) ^ 2 := by
        rw [Finset.sum_congr rfl (fun j _ => hexp j), Finset.sum_add_distrib,
          Finset.sum_add_distrib, ← Finset.mul_sum, hzero, Finset.sum_const,
          nsmul_eq_mul]
        ring

/-- Demeaning by any key does not increase the sum of squared deviations
from any constant column. -/
lemma ssq_demean_le_center {n : ℕ} (key : Fin n → ℤ) (r : Fin n → ℚ) (c : ℚ) :
    ssq (demean key r) ≤ ∑ i, (r i - c) ^ 2 := by
  have hmaps : ∀ i ∈ (Finset.univ : Finset (Fin n)), key i ∈ Finset.univ.image key :=
    fun i hi => Finset.mem_image_of_mem key hi
  have hL := Finset.sum_fiberwise_of_maps_to (t := Finset.univ.image key) hmaps
    (fun i => (demean key r i) ^ 2)
  have hR := Finset.sum_fiberwise_of_maps_to (t := Finset.univ.image key) hmaps
    (fun i => (r i - c) ^ 2)
  rw [ssq, ← hL, ← hR]
  apply Finset.sum_le_sum
  intro k hk
  have hne : (fiber key k).Nonempty := by
    obtain ⟨i, _, hik⟩ := Finset.mem_image.mp hk
    exact ⟨i, by simp [fiber, hik]⟩
  have hfib : Finset.univ.filter (fun i => key i = k) = fiber key k := rfl
  calc ∑ i ∈ Finset.univ.filter (fun i => key i = k), (demean key r i) ^ 2
      = ∑ i ∈ fiber key k, (r i - gmean key r k) ^ 2 := by
        rw [hfib]
        refine Finset.sum_congr rfl (fun i hi => ?_)
        have : key i = k := (Finset.mem_filter.mp hi).2
        simp [demean, this]
    _ ≤ ∑ i ∈ fiber key k, (r i - c) ^ 2 :=
        fiber_sq_le _ r _ c (fiber_sum_eq key r k hne)
    _ = ∑ i ∈ Finset.univ.filter (fun i => key i = k), (r i - c) ^ 2 := by rw [hfib]

lemma ssq_demean_le {n : ℕ} (key : Fin n → ℤ) (r : Fin n → ℚ) :
    ssq (demean key r) ≤ ssq r := by
  have h := ssq_demean_le_center key r 0
  simpa [ssq] using h

/-- After demeaning by a key, every nonempty group of that key has mean
exactly zero. -/
lemma gmean_demean_self {n : ℕ} (key : Fin n → ℤ) (r : Fin n → ℚ) (k : ℤ)
    (h : (fiber key k).Nonempty) :
    gmean key (demean key r) k = 0 := by
  have hsum : ∑ j ∈ fiber key k, demean key r j = 0 := by
    have : ∀ j ∈ fiber key k, demean key r j = r j - gmean key r k := by
      intro j hj
      have : key j = k := (Finset.mem_filter.mp hj).2
      simp [demean, this]
    rw [Finset.sum_congr rfl this, Finset.sum_sub_distrib,
      fiber_sum_eq key r k h, Finset.sum_const, nsmul_eq_mul]
    ring
  rw [gmean_def, hsum, zero_div]

lemma resIter_ssq_le {n : ℕ} (origin dest : Fin n → ℤ) :
    ∀ (t : ℕ) (r : Fin n → ℚ), ssq ((resIter origin dest t r).1) ≤ ssq r := by
  intro t
  induction t with
  | zero => intro r; simp [resIter]
  | succ t ih =>
    intro r
    have hstep : ssq (stepDemean origin dest r) ≤ ssq r := by
      rw [stepDemean_eq]
      exact le_trans (ssq_demean_le dest _) (ssq_demean_le origin r)
    simp only [resIter]
    split
    · exact hstep
    · exact le_trans (ih _) hstep

/-- After at least one iteration the result of the loop is a column that
was just demeaned by destination. -/
lemma resIter_fst_shape {n : ℕ} (origin dest : Fin n → ℤ) :
    ∀ (t : ℕ) (r : Fin n → ℚ), ∃ z, (resIter origin dest (t + 1) r).1 = demean dest z := by
  intro t
  induction t with
  | zero =>
    intro r
    refine ⟨demean origin r, ?_⟩
    simp only [resIter]
    split
    · exact stepDemean_eq origin dest r
    · simp [resIter, stepDemean_eq]
  | succ t ih =>
    intro r
    simp only [resIter]
    split
    · exact ⟨demean origin r, stepDemean_eq origin dest r⟩
    · exact ih _

lemma resIter_succ_ssq_le {n : ℕ} (origin dest : Fin n → ℤ) (t : ℕ)
    (y : Fin n → ℚ) (c : ℚ) :
    ssq ((resIter origin dest (t + 1) y).1) ≤ ∑ i, (y i - c) ^ 2 := by
  have hstep : ssq (stepDemean origin dest y) ≤ ∑ i, (y i - c) ^ 2 := by
    rw [stepDemean_eq]
    exact le_trans (ssq_demean_le dest _) (ssq_demean_le_center origin y c)
  simp only [resIter]
  split
  · exact hstep
  · exact le_trans (resIter_ssq_le origin dest t _) hstep

lemma cyc_fiber_o1 : fiber cycOrigin 1 = {0, 5} := by decide

lemma cyc_fiber_o2 : fiber cycOrigin 2 = {1, 2} := by decide

lemma cyc_fiber_o3 : fiber cycOrigin 3 = {3, 4} := by decide

lemma cyc_fiber_d1 : fiber cycDest 1 = {0, 1} := by decide

lemma cyc_fiber_d2 : fiber cycDest 2 = {2, 3} := by decide

lemma cyc_fiber_d3 : fiber cycDest 3 = {4, 5} := by decide

lemma cyc_card_pair (a b : Fin 6) (h : a ≠ b) : (({a, b} : Finset (Fin 6)).card : ℚ) = 2 := by
  rw [Finset.card_insert_of_not_mem (by simpa using h), Finset.card_singleton]
  norm_num

lemma cyc_demean_origin (c : ℚ) :
    demean cycOrigin (fun i => c * cycVec i) = fun i => c / 2 * cycMid i := by
  have h1 : gmean cycOrigin (fun i => c * cycVec i) 1 = 3 * c / 2 := by
    rw [gmean_def, cyc_fiber_o1, Finset.sum_pair (by decide), cyc_card_pair _ _ (by decide)]
    show (c * 2 + c * 1) / 2 = 3 * c / 2
    ring
  have h2 : gmean cycOrigin (fun i => c * cycVec i) 2 = -(3 * c / 2) := by
    rw [gmean_def, cyc_fiber_o2, Finset.sum_pair (by decide), cyc_card_pair _ _ (by decide)]
    show (c * (-2) + c * (-1)) / 2 = -(3 * c / 2)
    ring
  have h3 : gmean cycOrigin (fun i => c * cycVec i) 3 = 0 := by
    rw [gmean_def, cyc_fiber_o3, Finset.sum_pair (by decide), cyc_card_pair _ _ (by decide)]
    show (c * 1 + c * (-1)) / 2 = 0
    ring
  funext i
  fin_cases i
  · show c * cycVec 0 - gmean cycOrigin (fun i => c * cycVec i) 1 = c / 2 * cycMid 0
    rw [h1]; show c * 2 - 3 * c / 2 = c / 2 * 1; ring
  · show c * cycVec 1 - gmean cycOrigin (fun i => c * cycVec i) 2 = c / 2 * cycMid 1
    rw [h2]; show c * (-2) - -(3 * c / 2) = c / 2 * (-1); ring
  · show c * cycVec 2 - gmean cycOrigin (fun i => c * cycVec i) 2 = c / 2 * cycMid 2
    rw [h2]; show c * (-1) - -(3 * c / 2) = c / 2 * 1; ring
  · show c * cycVec 3 - gmean cycOrigin (fun i => c * cycVec i) 3 = c / 2 * cycMid 3
    rw [h3]; show c * 1 - 0 = c / 2 * 2; ring
  · show c * cycVec 4 - gmean cycOrigin (fun i => c * cycVec i) 3 = c / 2 * cycMid 4
    rw [h3]; show c * (-1) - 0 = c / 2 * (-2); ring
  · show c * cycVec 5 - gmean cycOrigin (fun i => c * cycVec i) 1 = c / 2 * cycMid 5
    rw [h1]; show c * 1 - 3 * c / 2 = c / 2 * (-1); ring

lemma cyc_demean_dest (c : ℚ) :
    demean cycDest (fun i => c / 2 * cycMid i) = fun i => c / 4 * cycVec i := by
  have h1 : gmean cycDest (fun i => c / 2 * cycMid i) 1 = 0 := by
    rw [gmean_def, cyc_fiber_d1, Finset.sum_pair (by decide), cyc_card_pair _ _ (by decide)]
    show (c / 2 * 1 + c / 2 * (-1)) / 2 = 0
    ring
  have h2 : gmean cycDest (fun i => c / 2 * cycMid i) 2 = 3 * c / 4 := by
    rw [gmean_def, cyc_fiber_d2, Finset.sum_pair (by decide), cyc_card_pair _ _ (by decide)]
    show (c / 2 * 1 + c / 2 * 2) / 2 = 3 * c / 4
    ring
  have h3 : gmean cycDest (fun i => c / 2 * cycMid i) 3 = -(3 * c / 4) := by
    rw [gmean_def, cyc_fiber_d3, Finset.sum_pair (by decide), cyc_card_pair _ _ (by decide)]
    show (c / 2 * (-2) + c / 2 * (-1)) / 2 = -(3 * c / 4)
    ring
  funext i
  fin_cases i
  · show c / 2 * cycMid 0 - gmean cycDest (fun i => c / 2 * cycMid i) 1 = c / 4 * cycVec 0
    rw [h1]; show c / 2 * 1 - 0 = c / 4 * 2; ring
  · show c / 2 * cycMid 1 - gmean cycDest (fun i => c / 2 * cycMid i) 1 = c / 4 * cycVec 1
    rw [h1]; show c / 2 * (-1) - 0 = c / 4 * (-2); ring
  · show c / 2 * cycMid 2 - gmean cycDest (fun i => c / 2 * cycMid i) 2 = c / 4 * cycVec 2
    rw [h2]; show c / 2 * 1 - 3 * c / 4 = c / 4 * (-1); ring
  · show c / 2 * cycMid 3 - gmean cycDest (fun i => c / 2 * cycMid i) 2 = c / 4 * cycVec 3
    rw [h2]; show c / 2 * 2 - 3 * c / 4 = c / 4 * 1; ring
  · show c / 2 * cycMid 4 - gmean cycDest (fun i => c / 2 * cycMid i) 3 = c / 4 * cycVec 4
    rw [h3]; show c / 2 * (-2) - -(3 * c / 4) = c / 4 * (-1); ring
  · show c / 2 * cycMid 5 - gmean cycDest (fun i => c / 2 * cycMid i) 3 = c / 4 * cycVec 5
    rw [h3]; show c / 2 * (-1) - -(3 * c / 4) = c / 4 * 1; ring

/-- One residualizer iteration rescales the eigvon column by `1/4`. -/
lemma cyc_step_scale (c : ℚ) :
    stepDemean cycOrigin cycDest (fun i => c * cycVec i) = fun i => c / 4 * cycVec i := by
  rw [stepDemean_eq, cyc_demean_origin, cyc_demean_dest]

lemma le_maxAbs {n : ℕ} (f : Fin n → ℚ) (i : Fin n) : |f i| ≤ maxAbs f := by
  rw [maxAbs]
  exact (Finset.le_fold_max _).mpr (Or.inr ⟨i, Finset.mem_univ i, le_refl _⟩)

lemma cyc_maxAbs (q : ℚ) :
    maxAbs (fun i => q * cycVec i) = 2 * |q| := by
  apply le_antisymm
  · rw [maxAbs, Finset.fold_max_le]
    refine ⟨by positivity, fun i _ => ?_⟩
    rw [abs_mul]
    have hv : |cycVec i| ≤ 2 := by
      fin_cases i
      · show |(2 : ℚ)| ≤ 2; norm_num
      · show |(-2 : ℚ)| ≤ 2; norm_num
      · show |(-1 : ℚ)| ≤ 2; norm_num
      · show |(1 : ℚ)| ≤ 2; norm_num
      · show |(-1 : ℚ)| ≤ 2; norm_num
      · show |(1 : ℚ)| ≤ 2; norm_num
    nlinarith [abs_nonneg q]
  · have h := le_maxAbs (fun i => q * cycVec i) 0
    have h0 : |q * cycVec 0| = 2 * |q| := by
      have hv : cycVec 0 = 2 := rfl
      rw [abs_mul, hv]
      norm_num
      ring
    rw [h0] at h
    exact h

/-- On an eigenvector column of amplitude `c`, the loop never breaks in `t`
iterations once `4^t · tol ≤ (3/2)·|c|`. -/
lemma cyc_no_break :
    ∀ (t : ℕ) (c : ℚ), 4 ^ t * tolQ ≤ 3 / 2 * |c| →
      (resIter cycOrigin cycDest t (fun i => c * cycVec i)).2 = false := by
  intro t
  induction t with
  | zero => intro c _; rfl
  | succ t ih =>
    intro c hc
    have htol : (0 : ℚ) < tolQ := by norm_num [tolQ]
    have hchange :
        (fun i => stepDemean cycOrigin cycDest (fun j => c * cycVec j) i
          - c * cycVec i) = fun i => -(3 * c / 4) * cycVec i := by
      rw [cyc_step_scale]
      funext i
      ring
    have hmax : maxAbs (fun i => stepDemean cycOrigin cycDest (fun j => c * cycVec j) i
        - c * cycVec i) = 3 / 2 * |c| := by
      rw [hchange, cyc_maxAbs]
      rw [abs_neg, abs_div, abs_mul]
      norm_num
      ring
    have hnotlt : ¬ maxAbs (fun i => stepDemean cycOrigin cycDest (fun j => c * cycVec j) i
        - c * cycVec i) < tolQ := by
      rw [hmax]
      push_neg
      have h1pow : (1 : ℚ) ≤ 4 ^ (t + 1) := one_le_pow₀ (by norm_num)
      calc tolQ = 1 * tolQ := (one_mul _).symm
        _ ≤ 4 ^ (t + 1) * tolQ := mul_le_mul_of_nonneg_right h1pow htol.le
        _ ≤ 3 / 2 * |c| := hc
    simp only [resIter]
    rw [if_neg hnotlt, cyc_step_scale]
    have hquarter : (fun i => c / 4 * cycVec i) = fun i => (c / 4) * cycVec i := rfl
    rw [hquarter]
    apply ih
    have h4 : |c / 4| = |c| / 4 := by
      rw [abs_div]
      norm_num
    rw [h4]
    have : (4:ℚ) ^ (t + 1) * tolQ = 4 * (4 ^ t * tolQ) := by ring
    nlinarith [hc, pow_pos (by norm_num : (0:ℚ) < 4) t, htol]

lemma aseq_one : aseq 1 = omq 1 := by
  unfold aseq omq
  norm_num
  ring

lemma aseq_diff (m : ℕ) (h : 2 ≤ m) : aseq m - aseq (m - 1) = 2 * omq m := by
  unfold aseq omq
  rw [Nat.cast_sub (by omega : 1 ≤ m), Nat.cast_one]
  ring

lemma aseq_top : aseq 10999 = -(10999 / 2) * dlt := by
  unfold aseq
  norm_num
  ring

lemma omq_succ (m : ℕ) : omq (m + 1) - omq m = dlt := by
  unfold omq
  push_cast
  ring

lemma omq_top : omq 11000 = 10999 / 2 * dlt := by
  unfold omq
  norm_num

lemma chain_fiber_origin_one :
    fiber chainOrigin 1 = {(⟨0, by norm_num⟩ : Fin 21998)} := by
  ext i
  simp only [fiber, Finset.mem_filter, Finset.mem_univ, true_and,
    Finset.mem_singleton, chainOrigin, Fin.ext_iff]
  split_ifs with h <;> omega

lemma chain_fiber_origin_mid (m : ℕ) (h2 : 2 ≤ m) (hm : m ≤ 10999) :
    fiber chainOrigin ((m : ℕ) : ℤ)
      = {(⟨m - 1, by omega⟩ : Fin 21998), ⟨10999 + m - 2, by omega⟩} := by
  ext i
  simp only [fiber, Finset.mem_filter, Finset.mem_univ, true_and,
    Finset.mem_insert, Finset.mem_singleton, chainOrigin, Fin.ext_iff]
  split_ifs with h <;> omega

lemma chain_fiber_origin_top :
    fiber chainOrigin 11000 = {(⟨21997, by norm_num⟩ : Fin 21998)} := by
  ext i
  simp only [fiber, Finset.mem_filter, Finset.mem_univ, true_and,
    Finset.mem_singleton, chainOrigin, Fin.ext_iff]
  split_ifs with h <;> omega

lemma chain_fiber_dest (d : ℕ) (h1 : 1 ≤ d) (hd : d ≤ 10999) :
    fiber chainDest ((d : ℕ) : ℤ)
      = {(⟨d - 1, by omega⟩ : Fin 21998), ⟨10999 + d - 1, by omega⟩} := by
  ext i
  simp only [fiber, Finset.mem_filter, Finset.mem_univ, true_and,
    Finset.mem_insert, Finset.mem_singleton, chainDest, Fin.ext_iff]
  split_ifs with h <;> omega

lemma chainY_lt {i : Fin 21998} (h : (i : ℕ) < 10999) :
    chainY i = aseq ((i : ℕ) + 1) := by
  unfold chainY
  rw [if_pos h]

lemma chainY_ge {i : Fin 21998} (h : ¬ (i : ℕ) < 10999) :
    chainY i = -aseq ((i : ℕ) - 10999 + 1) := by
  unfold chainY
  rw [if_neg h]

lemma chainOrigin_lt {i : Fin 21998} (h : (i : ℕ) < 10999) :
    chainOrigin i = ((i : ℕ) : ℤ) + 1 := by
  unfold chainOrigin
  rw [if_pos h]

lemma chainOrigin_ge {i : Fin 21998} (h : ¬ (i : ℕ) < 10999) :
    chainOrigin i = ((i : ℕ) : ℤ) - 10999 + 2 := by
  unfold chainOrigin
  rw [if_neg h]

lemma chainDest_lt {i : Fin 21998} (h : (i : ℕ) < 10999) :
    chainDest i = ((i : ℕ) : ℤ) + 1 := by
  unfold chainDest
  rw [if_pos h]

lemma chainDest_ge {i : Fin 21998} (h : ¬ (i : ℕ) < 10999) :
    chainDest i = ((i : ℕ) : ℤ) - 10999 + 1 := by
  unfold chainDest
  rw [if_neg h]

lemma chain_gmean_origin_one : gmean chainOrigin chainY 1 = omq 1 := by
  rw [gmean_def, chain_fiber_origin_one, Finset.sum_singleton, Finset.card_singleton]
  have hy : chainY ⟨0, by norm_num⟩ = aseq 1 := chainY_lt (by norm_num)
  rw [hy, aseq_one]
  norm_num

lemma chain_gmean_origin_mid (m : ℕ) (h2 : 2 ≤ m) (hm : m ≤ 10999) :
    gmean chainOrigin chainY ((m : ℕ) : ℤ) = omq m := by
  rw [gmean_def, chain_fiber_origin_mid m h2 hm]
  have hne : (⟨m - 1, by omega⟩ : Fin 21998) ≠ ⟨10999 + m - 2, by omega⟩ := by
    simp only [ne_eq, Fin.mk.injEq]
    omega
  rw [Finset.sum_pair hne, Finset.card_insert_of_not_mem (Finset.not_mem_singleton.mpr hne),
    Finset.card_singleton]
  have hyA : chainY ⟨m - 1, by omega⟩ = aseq m := by
    rw [chainY_lt (show m - 1 < 10999 by omega)]
    congr 1
    show m - 1 + 1 = m
    omega
  have hyB : chainY ⟨10999 + m - 2, by omega⟩ = -aseq (m - 1) := by
    rw [chainY_ge (show ¬ 10999 + m - 2 < 10999 by omega)]
    congr 2
    show 10999 + m - 2 - 10999 + 1 = m - 1
    omega
  rw [hyA, hyB]
  have hd := aseq_diff m h2
  have hsum : aseq m + -aseq (m - 1) = 2 * omq m := by linarith
  rw [hsum]
  norm_num

lemma chain_gmean_origin_top : gmean chainOrigin chainY 11000 = omq 11000 := by
  rw [gmean_def, chain_fiber_origin_top, Finset.sum_singleton, Finset.card_singleton]
  have hy : chainY ⟨21997, by norm_num⟩ = -aseq 10999 := by
    rw [chainY_ge (show ¬ (21997 : ℕ) < 10999 by omega)]
    norm_num
  rw [hy, aseq_top, omq_top]
  norm_num

/-- The origin-group mean of the chain input at every origin value. -/
lemma chain_gmean_origin (m : ℕ) (h1 : 1 ≤ m) (hm : m ≤ 11000) :
    gmean chainOrigin chainY ((m : ℕ) : ℤ) = omq m := by
  rcases eq_or_lt_of_le h1 with h | h
  · rw [← h]
    exact_mod_cast chain_gmean_origin_one
  · rcases eq_or_lt_of_le hm with h2 | h2
    · rw [h2]
      exact_mod_cast chain_gmean_origin_top
    · exact chain_gmean_origin_mid m (by omega) (by omega)

/-- Residual after the origin demean, at an `A` row of the chain. -/
lemma chain_r1_A (j : ℕ) (hj : j < 10999) :
    demean chainOrigin chainY ⟨j, by omega⟩ = aseq (j + 1) - omq (j + 1) := by
  have hg : gmean chainOrigin chainY (chainOrigin ⟨j, by omega⟩) = omq (j + 1) := by
    rw [chainOrigin_lt (show j < 10999 by omega)]
    have hc : (((⟨j, by omega⟩ : Fin 21998) : ℕ) : ℤ) + 1 = ((j + 1 : ℕ) : ℤ) := by
      show ((j : ℤ)) + 1 = ((j + 1 : ℕ) : ℤ)
      push_cast
      ring
    rw [hc]
    exact chain_gmean_origin (j + 1) (by omega) (by omega)
  simp only [demean]
  rw [hg, chainY_lt (show j < 10999 by omega)]

/-- Residual after the origin demean, at a `B` row of the chain. -/
lemma chain_r1_B (j : ℕ) (hj : j < 10999) :
    demean chainOrigin chainY ⟨10999 + j, by omega⟩ = -aseq (j + 1) - omq (j + 2) := by
  have hge : ¬ ((⟨10999 + j, by omega⟩ : Fin 21998) : ℕ) < 10999 := by
    show ¬ 10999 + j < 10999
    omega
  have hg : gmean chainOrigin chainY (chainOrigin ⟨10999 + j, by omega⟩) = omq (j + 2) := by
    rw [chainOrigin_ge hge]
    have hc : (((⟨10999 + j, by omega⟩ : Fin 21998) : ℕ) : ℤ) - 10999 + 2
        = ((j + 2 : ℕ) : ℤ) := by
      show ((10999 + j : ℕ) : ℤ) - 10999 + 2 = ((j + 2 : ℕ) : ℤ)
      push_cast
      ring
    rw [hc]
    exact chain_gmean_origin (j + 2) (by omega) (by omega)
  have hy : chainY ⟨10999 + j, by omega⟩ = -aseq (j + 1) := by
    rw [chainY_ge hge]
    have harg : ((⟨10999 + j, by omega⟩ : Fin 21998) : ℕ) - 10999 + 1 = j + 1 := by
      show 10999 + j - 10999 + 1 = j + 1
      omega
    rw [harg]
  simp only [demean]
  rw [hg, hy]

/-- The destination-group mean of the once-demeaned chain column. -/
lemma chain_dm (j : ℕ) (hj : j < 10999) :
    gmean chainDest (demean chainOrigin chainY) ((j + 1 : ℕ) : ℤ)
      = -(omq (j + 1) + omq (j + 2)) / 2 := by
  rw [gmean_def, chain_fiber_dest (j + 1) (by omega) (by omega)]
  have hne : (⟨j + 1 - 1, by omega⟩ : Fin 21998) ≠ ⟨10999 + (j + 1) - 1, by omega⟩ := by
    simp only [ne_eq, Fin.mk.injEq]
    omega
  rw [Finset.sum_pair hne, Finset.card_insert_of_not_mem (Finset.not_mem_singleton.mpr hne),
    Finset.card_singleton]
  have e1 : (⟨j + 1 - 1, by omega⟩ : Fin 21998) = ⟨j, by omega⟩ := by
    simp only [Fin.mk.injEq]
    omega
  have e2 : (⟨10999 + (j + 1) - 1, by omega⟩ : Fin 21998) = ⟨10999 + j, by omega⟩ := by
    simp only [Fin.mk.injEq]
    omega
  rw [e1, e2, chain_r1_A j hj, chain_r1_B j hj]
  push_cast
  ring

/-- Final residual at an `A` row of the chain: the input moved by `+dlt/2`. -/
lemma chain_r2_A (j : ℕ) (hj : j < 10999) :
    demean chainDest (demean chainOrigin chainY) ⟨j, by omega⟩
      = aseq (j + 1) + dlt / 2 := by
  have hg : gmean chainDest (demean chainOrigin chainY) (chainDest ⟨j, by omega⟩)
      = -(omq (j + 1) + omq (j + 2)) / 2 := by
    rw [chainDest_lt (show j < 10999 by omega)]
    have hc : (((⟨j, by omega⟩ : Fin 21998) : ℕ) : ℤ) + 1 = ((j + 1 : ℕ) : ℤ) := by
      show ((j : ℤ)) + 1 = ((j + 1 : ℕ) : ℤ)
      push_cast
      ring
    rw [hc]
    exact chain_dm j hj
  rw [show demean chainDest (demean chainOrigin chainY) ⟨j, by omega⟩
      = demean chainOrigin chainY ⟨j, by omega⟩
        - gmean chainDest (demean chainOrigin chainY) (chainDest ⟨j, by omega⟩) from rfl]
  rw [hg, chain_r1_A j hj]
  have hs := omq_succ (j + 1)
  have hsucc : omq (j + 1 + 1) = omq (j + 1) + dlt := by linarith
  rw [show j + 2 = j + 1 + 1 from rfl, hsucc]
  ring

/-- Final residual at a `B` row of the chain: the input moved by `-dlt/2`. -/
lemma chain_r2_B (j : ℕ) (hj : j < 10999) :
    demean chainDest (demean chainOrigin chainY) ⟨10999 + j, by omega⟩
      = -aseq (j + 1) - dlt / 2 := by
  have hge : ¬ ((⟨10999 + j, by omega⟩ : Fin 21998) : ℕ) < 10999 := by
    show ¬ 10999 + j < 10999
    omega
  have hg : gmean chainDest (demean chainOrigin chainY) (chainDest ⟨10999 + j, by omega⟩)
      = -(omq (j + 1) + omq (j + 2)) / 2 := by
    rw [chainDest_ge hge]
    have hc : (((⟨10999 + j, by omega⟩ : Fin 21998) : ℕ) : ℤ) - 10999 + 1
        = ((j + 1 : ℕ) : ℤ) := by
      show ((10999 + j : ℕ) : ℤ) - 10999 + 1 = ((j + 1 : ℕ) : ℤ)
      push_cast
      ring
    rw [hc]
    exact chain_dm j hj
  rw [show demean chainDest (demean chainOrigin chainY) ⟨10999 + j, by omega⟩
      = demean chainOrigin chainY ⟨10999 + j, by omega⟩
        - gmean chainDest (demean chainOrigin chainY) (chainDest ⟨10999 + j, by omega⟩) from rfl]
  rw [hg, chain_r1_B j hj]
  have hs := omq_succ (j + 1)
  have hsucc : omq (j + 1 + 1) = omq (j + 1) + dlt := by linarith
  rw [show j + 2 = j + 1 + 1 from rfl, hsucc]
  ring

/-- Every row of the chain input moves by exactly `±dlt/2` in the first
iteration. -/
lemma chain_change (i : Fin 21998) :
    |demean chainDest (demean chainOrigin chainY) i - chainY i| = dlt / 2 := by
  by_cases h : (i : ℕ) < 10999
  · have hA := chain_r2_A (i : ℕ) h
    have hi : (⟨(i : ℕ), by omega⟩ : Fin 21998) = i := rfl
    rw [hi] at hA
    rw [hA, chainY_lt h]
    have : aseq ((i : ℕ) + 1) + dlt / 2 - aseq ((i : ℕ) + 1) = dlt / 2 := by ring
    rw [this]
    rw [abs_of_pos (by norm_num [dlt])]
  · have hB := chain_r2_B ((i : ℕ) - 10999) (by omega)
    have hi : (⟨10999 + ((i : ℕ) - 10999), by omega⟩ : Fin 21998) = i := by
      simp only [Fin.ext_iff, Fin.val_mk]
      omega
    rw [hi] at hB
    rw [hB, chainY_ge h]
    have harg : (i : ℕ) - 10999 + 1 = (i : ℕ) - 10999 + 1 := rfl
    have : -aseq ((i : ℕ) - 10999 + 1) - dlt / 2 - -aseq ((i : ℕ) - 10999 + 1)
        = -(dlt / 2) := by ring
    rw [this, abs_neg]
    rw [abs_of_pos (by norm_num [dlt])]

lemma chain_maxAbs :
    maxAbs (fun i => stepDemean chainOrigin chainDest chainY i - chainY i) = dlt / 2 := by
  have hfun : (fun i => stepDemean chainOrigin chainDest chainY i - chainY i)
      = fun i => demean chainDest (demean chainOrigin chainY) i - chainY i := by
    rw [stepDemean_eq]
  rw [hfun]
  apply le_antisymm
  · rw [maxAbs, Finset.fold_max_le]
    refine ⟨by norm_num [dlt], fun i _ => ?_⟩
    rw [chain_change i]
  · have h := le_maxAbs (fun i => demean chainDest (demean chainOrigin chainY) i - chainY i)
      ⟨0, by norm_num⟩
    rw [chain_change ⟨0, by norm_num⟩] at h
    exact h

/-- On the chain input the loop breaks in the first iteration. -/
lemma chain_converged_result :
    resIter chainOrigin chainDest 50 chainY
      = (stepDemean chainOrigin chainDest chainY, true) := by
  have h50 : (50 : ℕ) = 49 + 1 := by norm_num
  rw [h50]
  simp only [resIter]
  rw [if_pos]
  rw [chain_maxAbs]
  norm_num [dlt, tolQ]

/-- The origin-group mean of the final residuals at origin `11000` of the
chain input. -/
lemma chain_final_origin_mean :
    gmean chainOrigin ((resIter chainOrigin chainDest 50 chainY).1) 11000
      = 5499 * dlt := by
  rw [chain_converged_result]
  dsimp only
  rw [stepDemean_eq]
  rw [gmean_def]
  rw [chain_fiber_origin_top]
  rw [Finset.sum_singleton]
  rw [Finset.card_singleton]
  have hB := chain_r2_B 10998 (by norm_num)
  have e : (⟨10999 + 10998, by omega⟩ : Fin 21998) = ⟨21997, by norm_num⟩ := by
    simp only [Fin.mk.injEq]
  rw [e] at hB
  rw [hB, aseq_top]
  norm_num
  ring

/-!
Claim theorems for the builder.
-/

lemma foldl_optMin_pos :
    ∀ (xs : List ℚ) (acc : Option ℚ),
      (∀ x ∈ xs, 0 < x) → (∀ a, acc = some a → 0 < a) →
      ∀ m, xs.foldl (fun acc x => match acc with
        | none => some x
        | some m => some (min m x)) acc = some m → 0 < m := by
  intro xs
  induction xs with
  | nil =>
    intro acc hxs hacc m h
    exact hacc m h
  | cons x xs ih =>
    intro acc hxs hacc m h
    rw [List.foldl_cons] at h
    refine ih _ (fun y hy => hxs y (List.mem_cons_of_mem _ hy)) ?_ m h
    intro a ha
    cases acc with
    | none =>
      have hax : a = x := by
        simpa using ha.symm
      rw [hax]
      exact hxs x (List.mem_cons_self _ _)
    | some b =>
      have hab : a = min b x := by
        simpa using ha.symm
      rw [hab]
      exact lt_min (hacc b rfl) (hxs x (List.mem_cons_self _ _))

/-- The global minimum positive switch count, when it exists, is positive. -/
lemma minPos_pos (l : List MergedRow) (m : ℚ) (h : minPos l = some m) : 0 < m := by
  unfold minPos at h
  refine foldl_optMin_pos _ none ?_ ?_ m h
  · intro x hx
    obtain ⟨r, hr, hrx⟩ := List.mem_map.mp hx
    rw [← hrx]
    have := (List.mem_filter.mp hr).2
    simpa using this
  · intro a ha
    cases ha

/-- C1, amended.  When the skill-profile table has no overlap with the
switching-matrix occupations, the builder raises nothing — certainly not a
`DataError` — and returns an empty table; the residualizer then fails on
that empty table with numpy's `ValueError` (a zero-size reduction in the
convergence check), so the pipeline does fail before the learner stage, but
not in the builder and not with `DataError`. -/
theorem c1_empty_intersection (sw : List SwitchRow) (st : List StayerRow)
    (skillOccs : List ℤ)
    (hdisj : ∀ r ∈ sw, r.occ_origin ∉ skillOccs ∨ r.occ_dest ∉ skillOccs) :
    build_switching_regression_data sw st skillOccs = Except.ok [] ∧
    ∀ (origin dest : Fin 0 → ℤ) (y : Fin 0 → ℚ),
      step1_ols_residualize origin dest y = Except.error PyError.valueError := by
  constructor
  · have hf : filterSwitches sw skillOccs = [] := by
      unfold filterSwitches
      rw [List.filter_eq_nil_iff]
      intro r hr
      simp only [decide_eq_true_eq, not_and]
      intro h1
      rcases hdisj r hr with h | h
      · exact absurd h1 h
      · exact h
    unfold build_switching_regression_data mergedOf
    rw [hf]
    rfl
  · intro origin dest y
    unfold step1_ols_residualize
    rw [if_pos rfl]

/-- Witness for `c1_empty_intersection`: skill table `[3]`, switching pairs
on occupations `1` and `2`. -/
theorem c1_witness :
    (∀ r ∈ empSkillSw, r.occ_origin ∉ ([3] : List ℤ) ∨ r.occ_dest ∉ ([3] : List ℤ)) ∧
    (build_switching_regression_data empSkillSw empSkillSt [3] = Except.ok [] ∧
      ∀ (origin dest : Fin 0 → ℤ) (y : Fin 0 → ℚ),
        step1_ols_residualize origin dest y = Except.error PyError.valueError) :=
  ⟨by decide, c1_empty_intersection empSkillSw empSkillSt [3] (by decide)⟩

/-- C1, counterexample.  At the concrete empty-intersection input the
builder returns `Except.ok []` — it does not fail with `DataError` — and
the stage that does fail (the residualizer, on the empty table) raises
`ValueError`, not `DataError`. -/
theorem c1_counterexample :
    build_switching_regression_data empSkillSw empSkillSt [3] = Except.ok [] ∧
    step1_ols_residualize (fun _ : Fin 0 => (0 : ℤ)) (fun _ => 0) (fun _ => 0)
      = Except.error PyError.valueError ∧
    PyError.valueError ≠ PyError.dataError := by
  refine ⟨rfl, ?_, by decide⟩
  unfold step1_ols_residualize
  rw [if_pos rfl]

/-- C3.  A merged row with zero weighted switches and positive weighted
stayers is assigned, by the zero-switch imputation, the switch share
`m / weighted_stayers`, where `m` is the single global minimum positive
switch count over the merged table; that share is positive, so the row's
`log_switch_share = ln(m / weighted_stayers)` is finite — never `-inf` or
`NaN`. -/
theorem c3_zero_switch_floor (sw : List SwitchRow) (st : List StayerRow)
    (skillOccs : List ℤ) (r : MergedRow) (m : ℚ)
    (hmem : r ∈ mergedOf sw st skillOccs)
    (hws : r.weighted_switches = 0)
    (hst : 0 < r.weighted_stayers)
    (hmin : minPos (mergedOf sw st skillOccs) = some m) :
    shareVal (minPos (mergedOf sw st skillOccs)) r = some (m / r.weighted_stayers) ∧
    logIsFinite (m / r.weighted_stayers) ∧
    (r, some (m / r.weighted_stayers)) ∈ buildShares (mergedOf sw st skillOccs) := by
  have hm : 0 < m := minPos_pos _ m hmin
  have hshare : shareVal (minPos (mergedOf sw st skillOccs)) r
      = some (m / r.weighted_stayers) := by
    unfold shareVal
    rw [if_neg hst.ne', if_pos (by rw [hws]; exact zero_div _), hmin]
    rfl
  refine ⟨hshare, div_pos hm hst, ?_⟩
  unfold buildShares
  rw [← hshare]
  exact List.mem_map.mpr ⟨r, hmem, rfl⟩

/-- Witness for `c3_zero_switch_floor`: the pair `(1, 2)` has zero switches
and stayers `10`; the minimum positive switch count of the merged table is
`3`. -/
theorem c3_witness :
    ((⟨1, 2, 0, 10⟩ : MergedRow) ∈ mergedOf zeroSw zeroSt twoSkills ∧
      (0 : ℚ) = 0 ∧ (0 : ℚ) < 10 ∧
      minPos (mergedOf zeroSw zeroSt twoSkills) = some 3) ∧
    (shareVal (minPos (mergedOf zeroSw zeroSt twoSkills)) ⟨1, 2, 0, 10⟩
        = some (3 / (10 : ℚ)) ∧
      logIsFinite (3 / (10 : ℚ)) ∧
      ((⟨1, 2, 0, 10⟩ : MergedRow), some ((3 : ℚ) / 10))
        ∈ buildShares (mergedOf zeroSw zeroSt twoSkills)) :=
  ⟨⟨by decide, rfl, by decide, by decide⟩,
    c3_zero_switch_floor zeroSw zeroSt twoSkills ⟨1, 2, 0, 10⟩ 3
      (by decide) rfl (by decide) (by decide)⟩

/-- C10.  The imputation floor is the minimum positive switch count of the
merged table before self-pairs are removed: on `selfMinSw` the merged table
is listed in full, its global minimum positive count is `1` and comes from
the self-pair `(1, 1)`, while the minimum over cross pairs alone would be
`3`; the zero-switch cross pair `(1, 2)` is therefore assigned the share
`1/10` — a self-pair's switch count over its own stayers — and not `3/10`. -/
theorem c10_floor_is_self_pair_count :
    mergedSelf = [⟨1, 1, 1, 10⟩, ⟨1, 2, 0, 10⟩, ⟨2, 1, 3, 10⟩] ∧
    minPos mergedSelf = some 1 ∧
    minPos (mergedSelf.filter (fun r => r.occ_origin ≠ r.occ_dest)) = some 3 ∧
    shareVal (minPos mergedSelf) ⟨1, 2, 0, 10⟩ = some ((1 : ℚ) / 10) ∧
    (1 : ℚ) / 10 ≠ 3 / 10 := by
  have hmin : minPos mergedSelf = some 1 := by decide
  refine ⟨by decide, hmin, by decide, ?_, by norm_num⟩
  unfold shareVal
  rw [if_neg (by norm_num : ¬ ((⟨1, 2, 0, 10⟩ : MergedRow).weighted_stayers = 0)),
    if_pos (by norm_num), hmin]
  rfl

/-!
Claim theorems for the residualizer.
-/

lemma ssq_nonneg {n : ℕ} (f : Fin n → ℚ) : 0 ≤ ssq f :=
  Finset.sum_nonneg fun _ _ => sq_nonneg _

/-- On the eigenvector cycle input the loop exhausts all 50 iterations
without ever meeting the tolerance. -/
lemma cyc_cap_reached : (resIter cycOrigin cycDest 50 cycY).2 = false := by
  have habs : |cycAmp| = cycAmp := abs_of_pos (by unfold cycAmp; positivity)
  have hb : (4 : ℚ) ^ 50 * tolQ ≤ 3 / 2 * |cycAmp| := by
    rw [habs]
    unfold cycAmp tolQ
    norm_num
  exact cyc_no_break 50 cycAmp hb

/-- C2, counterexample.  The claim "for every valid input, after the
residualizer converges, `|mean(residual | origin = o)| < 1e-6` for every
origin group `o`" is false: on the chain input the convergence test fires
(every row moves by exactly `9.5e-11 < 1e-10` in the first iteration), yet
the origin-group mean of the final residuals at origin `11000` is
`5499 · 1.9e-10 = 1.04481e-6 ≥ 1e-6`.  The group is nonempty. -/
theorem c2_counterexample :
    (resIter chainOrigin chainDest 50 chainY).2 = true ∧
    (⟨21997, by norm_num⟩ : Fin 21998) ∈ fiber chainOrigin 11000 ∧
    ¬ |gmean chainOrigin ((resIter chainOrigin chainDest 50 chainY).1) 11000|
        < 1 / 1000000 := by
  refine ⟨?_, ?_, ?_⟩
  · rw [chain_converged_result]
  · rw [chain_fiber_origin_top]
    exact Finset.mem_singleton_self _
  · rw [chain_final_origin_mean]
    rw [abs_of_pos (by unfold dlt; norm_num)]
    unfold dlt
    norm_num

/-- C2, amended.  What does hold for every input: when the loop returns —
whether through the convergence break or by exhausting the 50 iterations —
the residual column was just demeaned by destination, so the mean of the
residuals over every nonempty destination group is exactly `0` (in
particular below any tolerance).  The analogous bound for origin groups is
not guaranteed (see the counterexample). -/
theorem c2_dest_group_means_zero {n : ℕ} (origin dest : Fin n → ℤ) (y : Fin n → ℚ)
    (d : ℤ) (hd : (fiber dest d).Nonempty) :
    gmean dest ((resIter origin dest 50 y).1) d = 0 := by
  obtain ⟨z, hz⟩ := resIter_fst_shape origin dest 49 y
  have hz50 : (resIter origin dest 50 y).1 = demean dest z := hz
  rw [hz50]
  exact gmean_demean_self dest z d hd

/-- Witness for `c2_dest_group_means_zero` at a concrete two-row table. -/
theorem c2_witness :
    (fiber (![5, 5] : Fin 2 → ℤ) 5).Nonempty ∧
    gmean (![5, 5] : Fin 2 → ℤ)
      ((resIter (![1, 2] : Fin 2 → ℤ) ![5, 5] 50 ![3, 7]).1) 5 = 0 :=
  ⟨⟨0, by decide⟩,
    c2_dest_group_means_zero ![1, 2] ![5, 5] ![3, 7] 5 ⟨0, by decide⟩⟩

/-- C5, counterexample.  The claim that on reaching the iteration cap the
residualizer "surfaces a non-fatal convergence warning visible in output
metadata" is false: on the cycle input the cap is reached without the
change ever falling below the tolerance, yet the warning stream of
`step1_ols_residualize` is empty — the source emits no warning anywhere
(and globally suppresses warnings). -/
theorem c5_counterexample :
    (resIter cycOrigin cycDest 50 cycY).2 = false ∧
    step1Warnings cycOrigin cycDest cycY = [] :=
  ⟨cyc_cap_reached, rfl⟩

/-- C5, amended.  When the loop reaches its 50-iteration cap without the
largest per-row change falling below `1e-10`, `step1_ols_residualize` does
proceed with the best-effort residuals — it returns the 50th-iteration
column and the fit statistic computed from it, raising nothing — but it
surfaces no warning at all: nothing in its output records convergence
status, and the module suppresses library warnings globally. -/
theorem c5_cap_reached_silent {n : ℕ} (origin dest : Fin n → ℤ) (y : Fin n → ℚ)
    (hne : n ≠ 0)
    (_hcap : (resIter origin dest 50 y).2 = false) :
    step1_ols_residualize origin dest y = Except.ok ((resIter origin dest 50 y).1,
      1 - ssq ((resIter origin dest 50 y).1) / ssTot y) ∧
    step1Warnings origin dest y = [] := by
  constructor
  · unfold step1_ols_residualize
    rw [if_neg hne]
  · rfl

/-- Witness for `c5_cap_reached_silent` at the cycle input, which reaches
the cap. -/
theorem c5_witness :
    (6 : ℕ) ≠ 0 ∧ (resIter cycOrigin cycDest 50 cycY).2 = false ∧
    (step1_ols_residualize cycOrigin cycDest cycY
        = Except.ok ((resIter cycOrigin cycDest 50 cycY).1,
          1 - ssq ((resIter cycOrigin cycDest 50 cycY).1) / ssTot cycY) ∧
      step1Warnings cycOrigin cycDest cycY = []) :=
  ⟨by norm_num, cyc_cap_reached,
    c5_cap_reached_silent cycOrigin cycDest cycY (by norm_num) cyc_cap_reached⟩

/-- C6.  For a table with nonzero total variance, `step1_ols_residualize`
reports `r2_fe = 1 - ss_resid / ss_total` where `ss_total` is computed from
the original dependent variable about its mean, and this value lies in
`[0, 1]`: each demeaning pass is a group-mean subtraction, which never
increases the sum of squares, and the first origin pass already bounds the
residual sum of squares by the total sum of squares. -/
theorem c6_r2_formula_and_range {n : ℕ} (origin dest : Fin n → ℤ) (y : Fin n → ℚ)
    (h : ssTot y ≠ 0) :
    ∃ res r2, step1_ols_residualize origin dest y = Except.ok (res, r2) ∧
      r2 = 1 - ssq res / ssTot y ∧ 0 ≤ r2 ∧ r2 ≤ 1 := by
  have hne : n ≠ 0 := by
    intro h0
    apply h
    have hempty : IsEmpty (Fin n) := by
      rw [h0]
      infer_instance
    unfold ssTot
    rw [Finset.univ_eq_empty, Finset.sum_empty]
  refine ⟨(resIter origin dest 50 y).1,
    1 - ssq ((resIter origin dest 50 y).1) / ssTot y, ?_, rfl, ?_, ?_⟩
  · unfold step1_ols_residualize
    rw [if_neg hne]
  · have hpos : 0 < ssTot y :=
      lt_of_le_of_ne (Finset.sum_nonneg fun _ _ => sq_nonneg _) (Ne.symm h)
    have hle : ssq ((resIter origin dest 50 y).1) ≤ ssTot y := by
      have h50 := resIter_succ_ssq_le origin dest 49 y (meanAll y)
      exact h50
    have hq : ssq ((resIter origin dest 50 y).1) / ssTot y ≤ 1 :=
      (div_le_one hpos).mpr hle
    linarith
  · have hpos : 0 < ssTot y :=
      lt_of_le_of_ne (Finset.sum_nonneg fun _ _ => sq_nonneg _) (Ne.symm h)
    have hq : 0 ≤ ssq ((resIter origin dest 50 y).1) / ssTot y :=
      div_nonneg (ssq_nonneg _) hpos.le
    linarith

/-- Witness for `c6_r2_formula_and_range` at a concrete two-row table. -/
theorem c6_witness :
    ssTot (![3, 7] : Fin 2 → ℚ) ≠ 0 ∧
    (∃ res r2, step1_ols_residualize (![1, 2] : Fin 2 → ℤ) ![2, 1] ![3, 7]
        = Except.ok (res, r2) ∧
      r2 = 1 - ssq res / ssTot (![3, 7] : Fin 2 → ℚ) ∧ 0 ≤ r2 ∧ r2 ≤ 1) := by
  have h : ssTot (![3, 7] : Fin 2 → ℚ) ≠ 0 := by
    unfold ssTot meanAll
    rw [Fin.sum_univ_two, Fin.sum_univ_two]
    norm_num
  exact ⟨h, c6_r2_formula_and_range ![1, 2] ![2, 1] ![3, 7] h⟩

/-!
Claim theorems for the aggregator.
-/

lemma normScore_eq_some (port : List PortRow) (r : PortRow)
    (h : colMax (predCol port) ≠ colMin (predCol port)) :
    normScore port r = some (normQ port r) := by
  unfold normScore normQ
  rw [if_neg (sub_ne_zero.mpr h)]

lemma foldl_min_le : ∀ (ys : List ℚ) (a : ℚ), ys.foldl min a ≤ a := by
  intro ys
  induction ys with
  | nil => intro a; exact le_refl a
  | cons y ys ih =>
    intro a
    rw [List.foldl_cons]
    exact le_trans (ih _) (min_le_left a y)

lemma foldl_min_le_mem : ∀ (ys : List ℚ) (a x : ℚ), x ∈ ys → ys.foldl min a ≤ x := by
  intro ys
  induction ys with
  | nil => intro a x hx; cases hx
  | cons y ys ih =>
    intro a x hx
    rw [List.foldl_cons]
    rcases List.mem_cons.mp hx with h | h
    · rw [h]
      exact le_trans (foldl_min_le ys _) (min_le_right a y)
    · exact ih _ x h

lemma colMin_le {l : List ℚ} {x : ℚ} (h : x ∈ l) : colMin l ≤ x := by
  cases l with
  | nil => cases h
  | cons y ys =>
    show ys.foldl min y ≤ x
    rcases List.mem_cons.mp h with h1 | h1
    · rw [h1]
      exact foldl_min_le ys y
    · exact foldl_min_le_mem ys y x h1

lemma le_foldl_max : ∀ (ys : List ℚ) (a : ℚ), a ≤ ys.foldl max a := by
  intro ys
  induction ys with
  | nil => intro a; exact le_refl a
  | cons y ys ih =>
    intro a
    rw [List.foldl_cons]
    exact le_trans (le_max_left a y) (ih _)

lemma mem_le_foldl_max : ∀ (ys : List ℚ) (a x : ℚ), x ∈ ys → x ≤ ys.foldl max a := by
  intro ys
  induction ys with
  | nil => intro a x hx; cases hx
  | cons y ys ih =>
    intro a x hx
    rw [List.foldl_cons]
    rcases List.mem_cons.mp hx with h | h
    · rw [h]
      exact le_trans (le_max_right a y) (le_foldl_max ys _)
    · exact ih _ x h

lemma le_colMax {l : List ℚ} {x : ℚ} (h : x ∈ l) : x ≤ colMax l := by
  cases l with
  | nil => cases h
  | cons y ys =>
    show x ≤ ys.foldl max y
    rcases List.mem_cons.mp h with h1 | h1
    · rw [h1]
      exact le_foldl_max ys y
    · exact mem_le_foldl_max ys y x h1

lemma empGet_nonneg (emp : List (ℤ × ℚ)) (k : ℤ) (h : ∀ p ∈ emp, 0 ≤ p.2) :
    0 ≤ empGet emp k := by
  unfold empGet
  have aux : ∀ (l : List (ℤ × ℚ)) (a : ℚ), 0 ≤ a → (∀ p ∈ l, 0 ≤ p.2) →
      0 ≤ l.foldl (fun acc p => if p.1 = k then p.2 else acc) a := by
    intro l
    induction l with
    | nil => intro a ha _; exact ha
    | cons x xs ih =>
      intro a ha hl
      rw [List.foldl_cons]
      refine ih _ ?_ (fun p hp => hl p (List.mem_cons_of_mem _ hp))
      by_cases hx : x.1 = k
      · rw [if_pos hx]
        exact hl x (List.mem_cons_self _ _)
      · rw [if_neg hx]
        exact ha
  exact aux emp 0 (le_refl 0) h

lemma foldl_add_eq (f : PortRow → ℚ) :
    ∀ (l : List PortRow) (a : ℚ),
      l.foldl (fun acc r => acc + f r) a = a + (l.map f).sum := by
  intro l
  induction l with
  | nil => intro a; simp
  | cons x xs ih =>
    intro a
    rw [List.foldl_cons, ih, List.map_cons, List.sum_cons]
    ring

lemma totalWeight_eq (emp : List (ℤ × ℚ)) (port : List PortRow) (o : ℤ) :
    totalWeight emp port o
      = ((groupRows port o).map (fun r => empGet emp r.occ_dest)).sum := by
  unfold totalWeight
  rw [foldl_add_eq (fun r => empGet emp r.occ_dest), zero_add]

lemma weightedSum_aux (emp : List (ℤ × ℚ)) (port : List PortRow)
    (hdeg : colMax (predCol port) ≠ colMin (predCol port)) :
    ∀ (l : List PortRow) (a : ℚ),
      l.foldl (fun acc r => match acc, normScore port r with
        | some s, some q => some (s + q * empGet emp r.occ_dest)
        | _, _ => none) (some a)
      = some (a + (l.map (fun r => normQ port r * empGet emp r.occ_dest)).sum) := by
  intro l
  induction l with
  | nil => intro a; simp
  | cons x xs ih =>
    intro a
    rw [List.foldl_cons]
    have hx := normScore_eq_some port x hdeg
    simp only [hx]
    rw [ih (a + normQ port x * empGet emp x.occ_dest), List.map_cons, List.sum_cons]
    congr 1
    ring

/-- In the non-degenerate case the weighted sum of one origin group is the
plain rational sum of `normQ · empGet`. -/
lemma weightedSum_eq (emp : List (ℤ × ℚ)) (port : List PortRow) (o : ℤ)
    (hdeg : colMax (predCol port) ≠ colMin (predCol port)) :
    weightedSum emp port o
      = some (((groupRows port o).map
          (fun r => normQ port r * empGet emp r.occ_dest)).sum) := by
  unfold weightedSum
  rw [weightedSum_aux emp port hdeg (groupRows port o) 0, zero_add]

lemma map_mul_sum_le (l : List PortRow) (f w : PortRow → ℚ) (c : ℚ)
    (hf : ∀ r ∈ l, f r ≤ c) (hw : ∀ r ∈ l, 0 ≤ w r) :
    (l.map (fun r => f r * w r)).sum ≤ c * (l.map w).sum := by
  induction l with
  | nil => simp
  | cons x xs ih =>
    rw [List.map_cons, List.sum_cons, List.map_cons, List.sum_cons, mul_add]
    have h1 : f x * w x ≤ c * w x :=
      mul_le_mul_of_nonneg_right (hf x (List.mem_cons_self _ _))
        (hw x (List.mem_cons_self _ _))
    have h2 := ih (fun r hr => hf r (List.mem_cons_of_mem _ hr))
      (fun r hr => hw r (List.mem_cons_of_mem _ hr))
    linarith

lemma le_map_mul_sum (l : List PortRow) (f w : PortRow → ℚ) (c : ℚ)
    (hf : ∀ r ∈ l, c ≤ f r) (hw : ∀ r ∈ l, 0 ≤ w r) :
    c * (l.map w).sum ≤ (l.map (fun r => f r * w r)).sum := by
  induction l with
  | nil => simp
  | cons x xs ih =>
    rw [List.map_cons, List.sum_cons, List.map_cons, List.sum_cons, mul_add]
    have h1 : c * w x ≤ f x * w x :=
      mul_le_mul_of_nonneg_right (hf x (List.mem_cons_self _ _))
        (hw x (List.mem_cons_self _ _))
    have h2 := ih (fun r hr => hf r (List.mem_cons_of_mem _ hr))
      (fun r hr => hw r (List.mem_cons_of_mem _ hr))
    linarith

lemma originsOf_mem_of_tw (emp : List (ℤ × ℚ)) (port : List PortRow) (o : ℤ)
    (htw : 0 < totalWeight emp port o) : o ∈ originsOf port := by
  by_contra hno
  have hg : groupRows port o = [] := by
    unfold groupRows
    rw [List.filter_eq_nil_iff]
    intro r hr
    simp only [decide_eq_true_eq]
    intro heq
    exact hno (by
      unfold originsOf
      exact List.mem_dedup.mpr (List.mem_map.mpr ⟨r, hr, heq⟩))
  unfold totalWeight at htw
  rw [hg] at htw
  simp at htw

/-- An origin with positive total weight produces exactly its aggregate row. -/
lemma agg_mem (emp : List (ℤ × ℚ)) (port : List PortRow) (o : ℤ)
    (htw : 0 < totalWeight emp port o) (ho : o ∈ originsOf port) :
    (o, (weightedSum emp port o).map (fun s => s / totalWeight emp port o),
      meanScore port o) ∈ compute_aggregate_portability emp port := by
  unfold compute_aggregate_portability
  refine List.mem_filterMap.mpr ⟨o, ho, ?_⟩
  rw [if_pos htw]

/-- An origin without positive total weight appears nowhere in the
aggregate output. -/
lemma agg_excludes (emp : List (ℤ × ℚ)) (port : List PortRow) (o : ℤ)
    (h : ¬ 0 < totalWeight emp port o) :
    ∀ e ∈ compute_aggregate_portability emp port, e.1 ≠ o := by
  intro e he
  unfold compute_aggregate_portability at he
  obtain ⟨a, _, hfa⟩ := List.mem_filterMap.mp he
  by_cases hta : 0 < totalWeight emp port a
  · rw [if_pos hta] at hfa
    have he1 : e.1 = a := by
      rw [← Option.some.inj hfa]
    intro heq
    rw [he1] at heq
    rw [heq] at hta
    exact h hta
  · rw [if_neg hta] at hfa
    cases hfa

/-- C4, counterexample.  On a pairwise table whose predicted values are all
equal, the normalised score of a pair is NaN (`none`), not `0` as the claim
states. -/
theorem c4_counterexample :
    (⟨1, 2, 5⟩ : PortRow) ∈ flatPort ∧
    normScore flatPort ⟨1, 2, 5⟩ = none ∧
    ¬ normScore flatPort ⟨1, 2, 5⟩ = some 0 := by
  have hden : colMax (predCol flatPort) - colMin (predCol flatPort) = 0 := by
    have h : colMax (predCol flatPort) = colMin (predCol flatPort) := by decide
    rw [h, sub_self]
  have hn : normScore flatPort ⟨1, 2, 5⟩ = none := by
    unfold normScore
    rw [if_pos hden]
  refine ⟨by decide, hn, ?_⟩
  rw [hn]
  exact fun hh => Option.noConfusion hh

/-- C4, amended.  When `max = min` over the predicted column, every pair's
normalised score is the float `0/0 = NaN` (`none`), silently carried into
the aggregates; the source neither defines the scores to be `0` nor raises
an error. -/
theorem c4_degenerate_range_nan (port : List PortRow)
    (h : colMax (predCol port) = colMin (predCol port)) :
    ∀ r ∈ port, normScore port r = none := by
  intro r _
  unfold normScore
  rw [if_pos (by rw [h, sub_self])]

/-- Witness for `c4_degenerate_range_nan` on the constant table. -/
theorem c4_witness :
    colMax (predCol flatPort) = colMin (predCol flatPort) ∧
    ∀ r ∈ flatPort, normScore flatPort r = none :=
  ⟨by decide, c4_degenerate_range_nan flatPort (by decide)⟩

/-- C7.  For an origin with nonnegative employment weights, positive total
weight and a non-degenerate normalisation range, the employment-weighted
aggregate equals `S / total_weight` with `S` the weighted sum of normalised
scores, and it lies between the minimum and the maximum normalised pairwise
score available for that origin; the aggregate output contains exactly that
value for the origin. -/
theorem c7_weighted_mean_in_range (emp : List (ℤ × ℚ)) (port : List PortRow) (o : ℤ)
    (hemp : ∀ p ∈ emp, 0 ≤ p.2)
    (hdeg : colMax (predCol port) ≠ colMin (predCol port))
    (htw : 0 < totalWeight emp port o) :
    ∃ S, weightedSum emp port o = some S ∧
      colMin ((groupRows port o).map (normQ port)) ≤ S / totalWeight emp port o ∧
      S / totalWeight emp port o ≤ colMax ((groupRows port o).map (normQ port)) ∧
      (o, some (S / totalWeight emp port o), meanScore port o)
        ∈ compute_aggregate_portability emp port := by
  have hsum := weightedSum_eq emp port o hdeg
  refine ⟨_, hsum, ?_, ?_, ?_⟩
  · rw [le_div_iff₀ htw]
    rw [totalWeight_eq]
    have := le_map_mul_sum (groupRows port o) (normQ port)
      (fun r => empGet emp r.occ_dest)
      (colMin ((groupRows port o).map (normQ port)))
      (fun r hr => colMin_le (List.mem_map.mpr ⟨r, hr, rfl⟩))
      (fun r _ => empGet_nonneg emp r.occ_dest hemp)
    calc colMin ((groupRows port o).map (normQ port))
        * ((groupRows port o).map (fun r => empGet emp r.occ_dest)).sum
        ≤ ((groupRows port o).map
            (fun r => normQ port r * empGet emp r.occ_dest)).sum := this
      _ = _ := rfl
  · rw [div_le_iff₀ htw]
    rw [totalWeight_eq]
    have := map_mul_sum_le (groupRows port o) (normQ port)
      (fun r => empGet emp r.occ_dest)
      (colMax ((groupRows port o).map (normQ port)))
      (fun r hr => le_colMax (List.mem_map.mpr ⟨r, hr, rfl⟩))
      (fun r _ => empGet_nonneg emp r.occ_dest hemp)
    calc ((groupRows port o).map
          (fun r => normQ port r * empGet emp r.occ_dest)).sum
        ≤ colMax ((groupRows port o).map (normQ port))
          * ((groupRows port o).map (fun r => empGet emp r.occ_dest)).sum := this
      _ = _ := rfl
  · have hmem := agg_mem emp port o htw (originsOf_mem_of_tw emp port o htw)
    rw [hsum] at hmem
    simpa using hmem

/-- C9, counterexample.  Occupation `3` is an origin of the pairwise table
but its only destination has no employment data: it is excluded from the
weighted aggregate and no row of the aggregate output mentions it — it is
silently dropped, not reported as excluded — while occupation `1` does get
an output row. -/
theorem c9_counterexample :
    (3 : ℤ) ∈ dropPort.map (fun r => r.occ_origin) ∧
    totalWeight dropEmp dropPort 3 = 0 ∧
    (compute_aggregate_portability dropEmp dropPort).map (fun e => e.1) = [1] ∧
    (3 : ℤ) ∉ ([1] : List ℤ) := by
  have h0 : totalWeight dropEmp dropPort 3 = 0 := by
    unfold totalWeight groupRows dropPort dropEmp empGet
    norm_num
  have h1 : 0 < totalWeight dropEmp dropPort 1 := by
    unfold totalWeight groupRows dropPort dropEmp empGet
    norm_num
  refine ⟨by decide, h0, ?_, by decide⟩
  unfold compute_aggregate_portability
  rw [show originsOf dropPort = [1, 3] from by decide]
  rw [List.filterMap_cons, List.filterMap_cons, List.filterMap_nil]
  rw [if_pos h1, if_neg (by rw [h0]; exact lt_irrefl 0)]
  rw [List.map_cons, List.map_nil]

/-- C9, amended.  An origin occupation whose total destination employment
weight is zero is excluded from the weighted aggregate and is absent from
the aggregate output altogether: the output carries no record of the
exclusion. -/
theorem c9_zero_weight_silently_dropped (emp : List (ℤ × ℚ)) (port : List PortRow)
    (o : ℤ) (h : totalWeight emp port o = 0) :
    ∀ e ∈ compute_aggregate_portability emp port, e.1 ≠ o := by
  apply agg_excludes
  rw [h]
  exact lt_irrefl 0

/-- Witness for `c9_zero_weight_silently_dropped` at the concrete tables. -/
theorem c9_witness :
    totalWeight dropEmp dropPort 3 = 0 ∧
    ∀ e ∈ compute_aggregate_portability dropEmp dropPort, e.1 ≠ 3 := by
  have h0 : totalWeight dropEmp dropPort 3 = 0 := by
    unfold totalWeight groupRows dropPort dropEmp empGet
    norm_num
  exact ⟨h0, c9_zero_weight_silently_dropped dropEmp dropPort 3 h0⟩

/-- Witness for `c7_weighted_mean_in_range` at the concrete tables: origin
`1`, destinations `2` and `3` with employment `5` and `1`. -/
theorem c7_witness :
    ((∀ p ∈ aggEmp, 0 ≤ p.2) ∧
      colMax (predCol aggPort) ≠ colMin (predCol aggPort) ∧
      0 < totalWeight aggEmp aggPort 1) ∧
    (∃ S, weightedSum aggEmp aggPort 1 = some S ∧
      colMin ((groupRows aggPort 1).map (normQ aggPort)) ≤ S / totalWeight aggEmp aggPort 1 ∧
      S / totalWeight aggEmp aggPort 1 ≤ colMax ((groupRows aggPort 1).map (normQ aggPort)) ∧
      ((1 : ℤ), some (S / totalWeight aggEmp aggPort 1), meanScore aggPort 1)
        ∈ compute_aggregate_portability aggEmp aggPort) := by
  have htw : 0 < totalWeight aggEmp aggPort 1 := by
    unfold totalWeight groupRows aggPort aggEmp empGet
    norm_num
  exact ⟨⟨by decide, by decide, htw⟩,
    c7_weighted_mean_in_range aggEmp aggPort 1 (by decide) (by decide) htw⟩

end SkillPort
